import Mathlib

/-!
Shallow embedding of the telemetry synchronization and frame-assembly engine
of the F1 replay pipeline (src/src/f1_data/processors.py), over exact
rationals.  Machine floats are modelled by `ℚ`; numpy primitives
(`np.arange`, `np.interp`, `np.argsort`, `np.searchsorted`, `np.unique`) are
modelled by their documented exact-arithmetic semantics; Python's stable
`list.sort` and numpy argsort are modelled by a stable insertion sort.
-/

namespace F1

/-- Output clock rate, `FPS = 25` (processors.py line 20). -/
def FPS : ℚ := 25

/-- Tick step, `DT = 1.0 / FPS` (processors.py line 21). -/
def DT : ℚ := 1 / FPS

/-- Python `round(q, 3)`: round to a multiple of 1/1000 (ties modelled upward). -/
def round3 (q : ℚ) : ℚ := (⌊q * 1000 + 1 / 2⌋ : ℤ) / 1000

/-- Python `round(q, 1)`: round to a multiple of 1/10 (ties modelled upward). -/
def round1 (q : ℚ) : ℚ := (⌊q * 10 + 1 / 2⌋ : ℤ) / 10

/-- Length of `np.arange(start, stop, step)` for positive `step`:
`ceil((stop - start) / step)` values lie in `[start, stop)`. -/
def arangeLen (start stop step : ℚ) : ℕ :=
  if 0 < step ∧ start < stop then (⌈(stop - start) / step⌉ : ℤ).toNat else 0

/-- `np.arange(start, stop, step)`: the values `start + k * step` for
`k = 0, 1, …` strictly below `stop`. -/
def arange (start stop step : ℚ) : List ℚ :=
  (List.range (arangeLen start stop step)).map (fun k : ℕ => start + (k : ℚ) * step)

/-- The race timeline (processors.py line 344):
`np.arange(global_t_min, global_t_max, DT) - global_t_min`. -/
def raceTimeline (gmin gmax : ℚ) : List ℚ :=
  (arange gmin gmax DT).map (fun v => v - gmin)

/-- The qualifying timeline (processors.py line 637):
`np.arange(global_t_min, global_t_max + DT / 2, DT) - global_t_min`. -/
def qualiTimeline (gmin gmax : ℚ) : List ℚ :=
  (arange gmin (gmax + DT / 2) DT).map (fun v => v - gmin)

/-- `np.interp` on a list of `(x, f)` sample pairs with ascending `x`:
clamp below the first sample and above the last, linear in between. -/
def interpP (x : ℚ) : List (ℚ × ℚ) → ℚ
  | [] => 0
  | [(_, f0)] => f0
  | (x0, f0) :: (x1, f1) :: rest =>
    if x ≤ x0 then f0
    else if x ≤ x1 then f0 + (f1 - f0) * (x - x0) / (x1 - x0)
    else interpP x ((x1, f1) :: rest)

/-- `np.searchsorted(xs, v, side='right')` on an ascending list:
the number of elements `≤ v`. -/
def searchsortedRight (xs : List ℚ) (v : ℚ) : ℕ :=
  xs.countP (fun x => decide (x ≤ v))

/-- `np.clip(s - 1, 0, n - 1)` on the searchsorted result `s` (processors.py
line 676): truncated subtraction realises the clip at 0. -/
def clipIdx (s n : ℕ) : ℕ := min (s - 1) (n - 1)

/-! ### Per-competitor track extractor (`_process_single_driver`) -/

/-- The telemetry columns of one lap's table, as read at
processors.py lines 72–81. -/
structure LapTel where
  sessionTime : List ℚ
  x : List ℚ
  y : List ℚ
  distance : List ℚ
  relDistance : List ℚ
  speed : List ℚ
  nGear : List ℚ
  drs : List ℚ
  throttle : List ℚ
  brake : List ℚ
deriving DecidableEq

/-- One lap with its metadata (lap number, tire-compound code). -/
structure Lap where
  lapNumber : ℕ
  compound : ℚ
  tel : LapTel
deriving DecidableEq

/-- One row of the concatenated per-competitor series: all channels of one
telemetry sample. -/
structure Sample where
  t : ℚ
  x : ℚ
  y : ℚ
  dist : ℚ
  rel_dist : ℚ
  lap : ℚ
  tyre : ℚ
  speed : ℚ
  gear : ℚ
  drs : ℚ
  throttle : ℚ
  brake : ℚ
deriving DecidableEq

/-- The samples contributed by one lap (processors.py lines 72–97):
`race_d_lap = total_dist_so_far + d_lap`; lap number and tire code are
constant-filled. -/
def lapSamples (total : ℚ) (l : Lap) : List Sample :=
  (List.range l.tel.sessionTime.length).map (fun i =>
    { t := l.tel.sessionTime.getD i 0
      x := l.tel.x.getD i 0
      y := l.tel.y.getD i 0
      dist := total + l.tel.distance.getD i 0
      rel_dist := l.tel.relDistance.getD i 0
      lap := (l.lapNumber : ℚ)
      tyre := l.compound
      speed := l.tel.speed.getD i 0
      gear := l.tel.nGear.getD i 0
      drs := l.tel.drs.getD i 0
      throttle := l.tel.throttle.getD i 0
      brake := l.tel.brake.getD i 0 })

/-- The per-lap extraction loop (processors.py lines 61–97).  The running
race-distance offset `total_dist_so_far` is threaded through the loop
exactly as in the source: it is initialised to `0.0` before the loop and no
statement of the loop body ever updates it. -/
def collectLaps (total : ℚ) : List Lap → List Sample
  | [] => []
  | l :: ls =>
    if l.tel.sessionTime.isEmpty then collectLaps total ls
    else lapSamples total l ++ collectLaps total ls

/-- `int(laps_driver.LapNumber.max())` (processors.py line 46). -/
def maxLapOf (laps : List Lap) : ℕ := (laps.map (·.lapNumber)).foldr max 0

/-- Minimum of a nonempty rational list (`np.min`); 0 on the empty list. -/
def listMin : List ℚ → ℚ
  | [] => 0
  | v :: vs => vs.foldl min v

/-- Maximum of a nonempty rational list (`np.max`); 0 on the empty list. -/
def listMax : List ℚ → ℚ
  | [] => 0
  | v :: vs => vs.foldl max v

/-- Time order on samples, the `np.argsort(t_all)` key
(processors.py line 132). -/
def sampleLe (a b : Sample) : Prop := a.t ≤ b.t

instance : DecidableRel sampleLe := fun a b => inferInstanceAs (Decidable (a.t ≤ b.t))

instance : IsTotal Sample sampleLe := ⟨fun a b => le_total a.t b.t⟩

instance : IsTrans Sample sampleLe := ⟨fun _ _ _ => le_trans⟩

/-- The extraction result for one competitor (processors.py lines 165–184). -/
structure DriverResult where
  data : List Sample
  t_min : ℚ
  t_max : ℚ
  max_lap : ℕ
deriving DecidableEq

/-- The body of `_process_single_driver` after the laps were fetched:
empty-laps guard, per-lap collection, no-telemetry guard, concatenation and
stable time sort (processors.py lines 41–184). -/
def processLaps (laps : List Lap) : Option DriverResult :=
  if laps.isEmpty then none
  else
    let samples := collectLaps 0 laps
    if samples.isEmpty then none
    else
      let sorted := List.insertionSort sampleLe samples
      some
        { data := sorted
          t_min := listMin (sorted.map (·.t))
          t_max := listMax (sorted.map (·.t))
          max_lap := maxLapOf laps }

/-- `_process_single_driver` with its blanket except-clause (processors.py
lines 40, 185–187): any exception raised while fetching or processing the
laps is absorbed and the no-data sentinel `none` is returned. -/
def processSingleDriver (laps : Except String (List Lap)) : Option DriverResult :=
  match laps with
  | .error _ => none
  | .ok ls => processLaps ls

/-! ### Dispatcher aggregation and validation -/

/-- One step of the result-aggregation loop (processors.py lines 323–335):
a sentinel (`continue` on `None`) is skipped; a valid result folds into the
global min/max time bounds and the max lap number. -/
def aggStep (acc : Option (ℚ × ℚ × ℕ)) (r : Option DriverResult) : Option (ℚ × ℚ × ℕ) :=
  match r with
  | none => acc
  | some res =>
    match acc with
    | none => some (res.t_min, res.t_max, res.max_lap)
    | some (gmin, gmax, ml) =>
      some (min gmin res.t_min, max gmax res.t_max, max ml res.max_lap)

/-- Result aggregation over all drivers (processors.py lines 323–335). -/
def aggregateBounds (results : List (Option DriverResult)) : Option (ℚ × ℚ × ℕ) :=
  results.foldl aggStep none

/-- The `ValueError` message of processors.py line 339. -/
def noValidDataMsg : String := "No valid telemetry data found for any driver"

/-- Time-bound validation (processors.py lines 338–341): raise `ValueError`
when no driver produced data. -/
def validateBounds (results : List (Option DriverResult)) : Except String (ℚ × ℚ × ℕ) :=
  match aggregateBounds results with
  | none => .error noValidDataMsg
  | some v => .ok v

/-! ### Race-path resampling and frame assembly -/

/-- Time order on `(time, value)` channel pairs. -/
def timeLe (a b : ℚ × ℚ) : Prop := a.1 ≤ b.1

instance : DecidableRel timeLe := fun a b => inferInstanceAs (Decidable (a.1 ≤ b.1))

instance : IsTotal (ℚ × ℚ) timeLe := ⟨fun a b => le_total a.1 b.1⟩

instance : IsTrans (ℚ × ℚ) timeLe := ⟨fun _ _ _ => le_trans⟩

/-- Strict time order on `(time, value)` pairs: what holds of adjacent
pairs after sorting and deduplication. -/
def timeLt (a b : ℚ × ℚ) : Prop := a.1 < b.1

/-- Sort a channel's `(time, value)` pairs by time — the model of applying
the sorting permutation `np.argsort(t)` to a channel array
(processors.py lines 351–366). -/
def sortByTime (ps : List (ℚ × ℚ)) : List (ℚ × ℚ) := List.insertionSort timeLe ps

/-- Race-path resampling of one channel (processors.py lines 350–368):
shift times by `global_t_min`, sort, then `np.interp` onto the timeline.
Every channel — gear and brake included — goes through this same linear
interpolation. -/
def resampleChannel (timeline : List ℚ) (gmin : ℚ) (t vals : List ℚ) : List ℚ :=
  timeline.map (fun τ => interpP τ (sortByTime ((t.map (fun s => s - gmin)).zip vals)))

/-- One competitor's entry of a per-tick snapshot: its code and the sort
key (race distance at the tick).  The remaining payload channels are copied
through unchanged by the frame loop and are omitted from the model. -/
structure SnapEntry where
  code : String
  dist : ℚ
deriving DecidableEq

/-- Descending order by race distance, the key of
`snapshot.sort(key=lambda r: r["dist"], reverse=True)`
(processors.py line 441). -/
def distGe (a b : SnapEntry) : Prop := b.dist ≤ a.dist

instance : DecidableRel distGe := fun a b => inferInstanceAs (Decidable (b.dist ≤ a.dist))

instance : IsTotal SnapEntry distGe := ⟨fun a b => le_total b.dist a.dist⟩

instance : IsTrans SnapEntry distGe := ⟨fun _ _ _ hab hbc => le_trans hbc hab⟩

/-- Pair each element with its 1-based position `idx + 1`
(the `enumerate(snapshot)` of processors.py line 447). -/
def rankFrom {α : Type} (k : ℕ) : List α → List (α × ℕ)
  | [] => []
  | a :: as => (a, k) :: rankFrom (k + 1) as

/-- Stable descending sort by race distance followed by 1-based position
assignment (processors.py lines 441, 447–462). -/
def rankSnapshot (snap : List SnapEntry) : List (SnapEntry × ℕ) :=
  rankFrom 1 (List.insertionSort distGe snap)

/-- The per-tick snapshot: one entry per competitor, with the resampled
race-distance value at index `i` (processors.py lines 418–435). -/
def snapshotAt (drivers : List (String × List ℚ)) (i : ℕ) : List SnapEntry :=
  drivers.map (fun d => ⟨d.1, d.2.getD i 0⟩)

/-- One emitted race frame: rounded tick time and the ranked entries. -/
structure RaceFrame where
  t : ℚ
  entries : List (SnapEntry × ℕ)
deriving DecidableEq

/-- The frame-building loop (processors.py lines 409–499; weather and the
payload channels omitted): one frame per tick, skipping a tick only when
its snapshot is empty (`if not snapshot: continue`). -/
def buildFrames (timeline : List ℚ) (drivers : List (String × List ℚ)) : List RaceFrame :=
  (List.range timeline.length).filterMap (fun i =>
    let snap := snapshotAt drivers i
    if snap.isEmpty then none
    else some ⟨round3 (timeline.getD i 0), rankSnapshot snap⟩)

/-! ### Track-status segmenter -/

/-- One punctual race-control event (a row of `session.track_status`). -/
structure StatusEvent where
  status : String
  time : ℚ
deriving DecidableEq

/-- One formatted track-status segment (processors.py lines 265–271). -/
structure StatusSegment where
  status : String
  start_time : ℚ
  end_time : Option ℚ
deriving DecidableEq, Inhabited

/-- Patch the `end_time` of the last segment, as the loop body does to
`formatted_statuses[-1]` (processors.py lines 262–263). -/
def patchLastEnd (segs : List StatusSegment) (t : ℚ) : List StatusSegment :=
  match segs.getLast? with
  | none => segs
  | some s => segs.dropLast ++ [{ s with end_time := some t }]

/-- `_format_track_statuses` (processors.py lines 243–273): fold over the
events in order, setting the previous segment's end to the current start
and appending the current segment with an open end. -/
def formatTrackStatuses (events : List StatusEvent) (gmin : ℚ) : List StatusSegment :=
  events.foldl
    (fun acc e => patchLastEnd acc (e.time - gmin) ++ [⟨e.status, e.time - gmin, none⟩])
    []

/-- Closed-form description of the segment list: each event paired with the
next event's start as its end; the last event open. -/
def segmentsOf (gmin : ℚ) : List StatusEvent → List StatusSegment
  | [] => []
  | [e] => [⟨e.status, e.time - gmin, none⟩]
  | e :: e' :: rest =>
    ⟨e.status, e.time - gmin, some (e'.time - gmin)⟩ :: segmentsOf gmin (e' :: rest)

/-! ### Qualifying-variant resampling (`get_driver_quali_telemetry`) -/

/-- Keep the first pair of each run of equal times in an ascending pair
list: the effect of `np.unique(t_sorted, return_index=True)` followed by
indexing every channel with `order[unique_idx]`
(processors.py lines 646–659). -/
def dedupSorted : List (ℚ × ℚ) → List (ℚ × ℚ)
  | [] => []
  | [p] => [p]
  | p :: q :: rest =>
    if p.1 = q.1 then dedupSorted (p :: rest) else p :: dedupSorted (q :: rest)
termination_by l => l.length

/-- Sort-and-deduplicate of one qualifying channel against the shifted
times (processors.py lines 643–659). -/
def duPairs (t vals : List ℚ) (gmin : ℚ) : List (ℚ × ℚ) :=
  dedupSorted (sortByTime ((t.map (fun s => s - gmin)).zip vals))

/-- Continuous-channel qualifying resample (processors.py lines 662–669):
`np.interp` against the deduplicated time base. -/
def qualiInterp (timeline t vals : List ℚ) (gmin : ℚ) : List ℚ :=
  timeline.map (fun τ => interpP τ (duPairs t vals gmin))

/-- Brake in the qualifying variant (processors.py lines 668–672):
interpolate, round to one decimal, then scale to 0–100. -/
def qualiBrake (timeline t vals : List ℚ) (gmin : ℚ) : List ℚ :=
  timeline.map (fun τ => round1 (interpP τ (duPairs t vals gmin)) * 100)

/-- Truncation toward zero, Python `int(...)` / numpy `astype(int)`. -/
def ratTrunc (q : ℚ) : ℤ := q.num / (q.den : ℤ)

/-- The forward-fill lookup of processors.py lines 675–676:
`searchsorted(side='right') - 1`, clipped into range. -/
def ffillVal (τ : ℚ) (ps : List (ℚ × ℚ)) : ℚ :=
  (ps.getD (clipIdx (searchsortedRight (ps.map Prod.fst) τ) ps.length) (0, 0)).2

/-- Gear in the qualifying variant (processors.py lines 674–677):
forward-filled against the deduplicated time base, then cast to int. -/
def qualiGear (timeline t vals : List ℚ) (gmin : ℚ) : List ℤ :=
  timeline.map (fun τ => ratTrunc (ffillVal τ (duPairs t vals gmin)))

/-- The spec's step-function semantics for a discrete channel: the value of
the last sample at or before `τ` in an ascending sample list.  Used only to
compare the source's resampling against the claimed semantics. -/
def lastAtOrBefore (τ : ℚ) : List (ℚ × ℚ) → ℚ
  | [] => 0
  | [p] => p.2
  | p :: q :: rest => if q.1 ≤ τ then lastAtOrBefore τ (q :: rest) else p.2

/-! ### DRS-zone detection -/

/-- One detected DRS zone (processors.py lines 743–748). -/
structure DrsZone where
  zone_start : ℚ
  zone_end : Option ℚ
deriving DecidableEq

/-- One step of the DRS-zone scan, comparing the previous and current
resampled DRS codes against the activation threshold 10
(processors.py lines 737–752). -/
def drsStep (zones : List DrsZone) (prev curr d : ℚ) : List DrsZone :=
  if 10 ≤ curr ∧ prev < 10 then zones ++ [⟨d, none⟩]
  else if curr < 10 ∧ 10 ≤ prev then
    match zones.getLast? with
    | some z =>
      if z.zone_end = none then zones.dropLast ++ [{ z with zone_end := some d }]
      else zones
    | none => zones
  else zones

/-- Scan the remaining `(drs, dist)` ticks, carrying the previous DRS code
(the `i > 0` guard of processors.py line 737 makes tick 0 seed `prev`). -/
def drsScan (zones : List DrsZone) (prev : ℚ) : List (ℚ × ℚ) → List DrsZone
  | [] => zones
  | (curr, d) :: rest => drsScan (drsStep zones prev curr d) curr rest

/-- DRS-zone detection over the resampled `drs` and `dist` arrays
(processors.py lines 736–752). -/
def detectDrsZones (drs dist : List ℚ) : List DrsZone :=
  match drs.zip dist with
  | [] => []
  | (d0, _) :: rest => drsScan [] d0 rest

mutual

/-- Spec-side description of the claimed zone rules, state "no zone open":
a zone is opened (with `zone_start` = the race distance at the crossing
tick) exactly when the DRS code crosses the ≥ 10 threshold upward; nothing
else changes the zone list. -/
def zonesClosedOpen (prev : ℚ) : List (ℚ × ℚ) → List DrsZone
  | [] => []
  | (curr, d) :: rest =>
    if 10 ≤ curr ∧ prev < 10 then openZone d curr rest
    else zonesClosedOpen curr rest

/-- Spec-side description, state "most recent zone open": the open zone is
closed (with `zone_end` = the race distance at the crossing tick) exactly
when the code crosses the threshold downward; exhaustion leaves it open. -/
def openZone (start prev : ℚ) : List (ℚ × ℚ) → List DrsZone
  | [] => [⟨start, none⟩]
  | (curr, d) :: rest =>
    if curr < 10 ∧ 10 ≤ prev then ⟨start, some d⟩ :: zonesClosedOpen curr rest
    else openZone start curr rest

end

/-! ### Qualifying frame assembly -/

/-- One qualifying frame: rounded tick time and (part of) the telemetry
payload (processors.py lines 754–767). -/
structure QFrame where
  t : ℚ
  dist : ℚ
  gear : ℤ
  brake : ℚ
deriving DecidableEq

/-- Qualifying frame assembly (processors.py lines 706–771; weather and the
remaining payload channels omitted): one frame per tick, frame time =
`round(t, 3)` of the tick offset. -/
def assembleQualiFrames (timeline dist : List ℚ) (gear : List ℤ) (brake : List ℚ) :
    List QFrame :=
  (List.range timeline.length).map (fun i =>
    ⟨round3 (timeline.getD i 0), dist.getD i 0, gear.getD i 0, brake.getD i 0⟩)

/-- The final-frame overwrite of processors.py line 774:
`frames[-1]["t"] = round(parse_time_string(str(fastest_lap["LapTime"])), 3)`.
The official lap time parsed from the lap metadata enters as `lapTime`
(its parsing routine lives outside the embedded core and its value is
opaque here). -/
def setFinalFrameTime (frames : List QFrame) (lapTime : ℚ) : List QFrame :=
  match frames.getLast? with
  | none => frames
  | some f => frames.dropLast ++ [{ f with t := round3 lapTime }]

/-! ### Concrete inputs used by the claim theorems -/

/-- First lap of the two-lap failing input for the race-distance claim:
supposedly cumulative distance restarts from 0 on the next lap. -/
def c1Tel1 : LapTel :=
  ⟨[0, 1], [0, 0], [0, 0], [0, 100], [0, 0], [0, 0], [0, 0], [0, 0], [0, 0], [0, 0]⟩

/-- Second lap of the failing input: within-lap distance again runs 0→100. -/
def c1Tel2 : LapTel :=
  ⟨[2, 3], [0, 0], [0, 0], [0, 100], [0, 0], [0, 0], [0, 0], [0, 0], [0, 0], [0, 0]⟩

/-- Two consecutive laps, each spanning 100 distance units. -/
def c1Laps : List Lap := [⟨1, 0, c1Tel1⟩, ⟨2, 0, c1Tel2⟩]

/-- A competitor code used by concrete witnesses. -/
def codeA : String := "A"

/-- A second competitor code used by concrete witnesses. -/
def codeB : String := "B"

/-! ## Theorems -/

theorem patchLastEnd_concat (xs : List StatusSegment) (s : StatusSegment) (t : ℚ) :
    patchLastEnd (xs ++ [s]) t = xs ++ [{ s with end_time := some t }] := by
  simp [patchLastEnd]

theorem formatFold_eq_segmentsOf (gmin : ℚ) :
    ∀ (events : List StatusEvent) (acc : List StatusSegment),
      events.foldl
        (fun acc e => patchLastEnd acc (e.time - gmin) ++ [⟨e.status, e.time - gmin, none⟩])
        acc =
      (match events with
       | [] => acc
       | e :: _ => patchLastEnd acc (e.time - gmin) ++ segmentsOf gmin events)
  | [], acc => rfl
  | [e], acc => by simp [segmentsOf]
  | e :: e' :: rest, acc => by
    have ih := formatFold_eq_segmentsOf gmin (e' :: rest)
      (patchLastEnd acc (e.time - gmin) ++ [⟨e.status, e.time - gmin, none⟩])
    simp only [List.foldl_cons] at ih ⊢
    rw [ih]
    rw [patchLastEnd_concat, List.append_assoc]
    simp [segmentsOf]

theorem formatTrackStatuses_eq (events : List StatusEvent) (gmin : ℚ) :
    formatTrackStatuses events gmin = segmentsOf gmin events := by
  rw [formatTrackStatuses, formatFold_eq_segmentsOf]
  cases events with
  | nil => rfl
  | cons e rest => simp [patchLastEnd]

theorem segmentsOf_length (gmin : ℚ) :
    ∀ events : List StatusEvent, (segmentsOf gmin events).length = events.length
  | [] => rfl
  | [_] => rfl
  | _ :: e' :: rest => by
    simp only [segmentsOf, List.length_cons, segmentsOf_length gmin (e' :: rest)]

theorem segmentsOf_get (gmin : ℚ) :
    ∀ (events : List StatusEvent) (i : ℕ) (e : StatusEvent), events.get? i = some e →
      (segmentsOf gmin events).get? i =
        some ⟨e.status, e.time - gmin, (events.get? (i + 1)).map (fun e' => e'.time - gmin)⟩
  | [], i, e, h => by simp at h
  | [e0], 0, e, h => by
    simp only [List.get?] at h
    cases h
    rfl
  | [e0], (i + 1), e, h => by simp [List.get?] at h
  | e0 :: e1 :: rest, 0, e, h => by
    simp only [List.get?] at h
    cases h
    rfl
  | e0 :: e1 :: rest, (i + 1), e, h => by
    simp only [List.get?] at h ⊢
    exact segmentsOf_get gmin (e1 :: rest) i e h

theorem segmentsOf_getLast_end (gmin : ℚ) :
    ∀ (events : List StatusEvent) (s : StatusSegment),
      (segmentsOf gmin events).getLast? = some s → s.end_time = none
  | [], s, h => by simp [segmentsOf] at h
  | [e], s, h => by
    simp only [segmentsOf, List.getLast?_singleton, Option.some.injEq] at h
    rw [← h]
  | e :: e' :: rest, s, h => by
    cases hh : segmentsOf gmin (e' :: rest) with
    | nil =>
      have := segmentsOf_length gmin (e' :: rest)
      rw [hh] at this
      simp at this
    | cons h2 t2 =>
      rw [segmentsOf, hh, List.getLast?_cons_cons] at h
      rw [← hh] at h
      exact segmentsOf_getLast_end gmin (e' :: rest) s h

/-- C6: `_format_track_statuses` maps each ordered event to one segment in
order: same length, status and start preserved (shifted by `global_t_min`),
each segment's end equals the next segment's start, and the final segment's
end is open — hence segments are contiguous and non-overlapping. -/
theorem c6_segments_contiguous (events : List StatusEvent) (gmin : ℚ) :
    (formatTrackStatuses events gmin).length = events.length ∧
    (∀ (i : ℕ) (e : StatusEvent), events.get? i = some e →
      (formatTrackStatuses events gmin).get? i =
        some ⟨e.status, e.time - gmin, (events.get? (i + 1)).map (fun e' => e'.time - gmin)⟩) ∧
    (∀ (i : ℕ) (s s' : StatusSegment),
      (formatTrackStatuses events gmin).get? i = some s →
      (formatTrackStatuses events gmin).get? (i + 1) = some s' →
      s.end_time = some s'.start_time) ∧
    (∀ s : StatusSegment,
      (formatTrackStatuses events gmin).getLast? = some s → s.end_time = none) := by
  rw [formatTrackStatuses_eq]
  refine ⟨segmentsOf_length gmin events, segmentsOf_get gmin events, ?_,
    segmentsOf_getLast_end gmin events⟩
  intro i s s' hs hs'
  have hlen := segmentsOf_length gmin events
  have hi1 : i + 1 < events.length := by
    obtain ⟨hl, -⟩ := List.get?_eq_some.mp hs'
    rw [hlen] at hl
    exact hl
  have hi0 : i < events.length := Nat.lt_of_succ_lt hi1
  obtain ⟨ei, hei⟩ : ∃ e, events.get? i = some e :=
    ⟨events.get ⟨i, hi0⟩, List.get?_eq_get hi0⟩
  obtain ⟨ei1, hei1⟩ : ∃ e, events.get? (i + 1) = some e :=
    ⟨events.get ⟨i + 1, hi1⟩, List.get?_eq_get hi1⟩
  have h1 := segmentsOf_get gmin events i ei hei
  have h2 := segmentsOf_get gmin events (i + 1) ei1 hei1
  rw [hs] at h1
  rw [hs'] at h2
  have hs1 : s = ⟨ei.status, ei.time - gmin,
      (events.get? (i + 1)).map (fun e' => e'.time - gmin)⟩ := by
    exact Option.some.inj h1
  have hs2 : s' = ⟨ei1.status, ei1.time - gmin,
      (events.get? (i + 2)).map (fun e' => e'.time - gmin)⟩ := by
    exact Option.some.inj h2
  rw [hs1, hs2]
  simp only [hei1, Option.map_some']

/-- C6 witness: the theorem instantiated on two concrete events at times 5
and 9 with `global_t_min = 2`: two segments, the first ending where the
second starts, the second open. -/
theorem c6_segments_contiguous_witness :
    (formatTrackStatuses [⟨codeA, 5⟩, ⟨codeB, 9⟩] 2).length = 2 ∧
    (StatusSegment.mk codeA 3 (some 7)).end_time =
      some (StatusSegment.mk codeB 7 none).start_time ∧
    (StatusSegment.mk codeB 7 none).end_time = none := by
  refine ⟨(c6_segments_contiguous [⟨codeA, 5⟩, ⟨codeB, 9⟩] 2).1, ?_, ?_⟩
  · exact (c6_segments_contiguous [⟨codeA, 5⟩, ⟨codeB, 9⟩] 2).2.2.1 0
      ⟨codeA, 3, some 7⟩ ⟨codeB, 7, none⟩
      (by norm_num [formatTrackStatuses, patchLastEnd])
      (by norm_num [formatTrackStatuses, patchLastEnd])
  · exact (c6_segments_contiguous [⟨codeA, 5⟩, ⟨codeB, 9⟩] 2).2.2.2
      ⟨codeB, 7, none⟩ (by norm_num [formatTrackStatuses, patchLastEnd])

theorem foldl_aggStep_some (l : List (Option DriverResult)) :
    ∀ v, l.foldl aggStep (some v) ≠ none := by
  induction l with
  | nil => intro v h; exact Option.noConfusion h
  | cons r rest ih =>
    intro v
    cases r with
    | none => exact ih v
    | some res =>
      simp only [List.foldl_cons, aggStep]
      exact ih _

theorem aggregateBounds_eq_none_iff (results : List (Option DriverResult)) :
    aggregateBounds results = none ↔ ∀ r ∈ results, r = none := by
  induction results with
  | nil => simp [aggregateBounds]
  | cons r rest ih =>
    cases r with
    | none =>
      simpa [aggregateBounds, aggStep] using ih
    | some res =>
      simp only [aggregateBounds, List.foldl_cons, aggStep]
      constructor
      · intro h
        exact absurd h (foldl_aggStep_some rest _)
      · intro h
        exact absurd (h (some res) (List.mem_cons_self _ _)) (by simp)

/-- C7: `get_race_telemetry`'s time-bound validation raises the fatal
`ValueError` exactly when every per-competitor result is the no-data
sentinel, while `_process_single_driver` absorbs any internal exception
into the sentinel `none`, which the aggregation skips. -/
theorem c7_error_isolation :
    (∀ e : String, processSingleDriver (Except.error e) = none) ∧
    ∀ results : List (Option DriverResult),
      (validateBounds results = Except.error noValidDataMsg ↔ ∀ r ∈ results, r = none) := by
  constructor
  · intro e
    rfl
  · intro results
    rw [validateBounds]
    cases h : aggregateBounds results with
    | none =>
      exact iff_of_true rfl ((aggregateBounds_eq_none_iff results).mp h)
    | some v =>
      refine iff_of_false (by simp) (fun hall => ?_)
      have : aggregateBounds results = none :=
        (aggregateBounds_eq_none_iff results).mpr hall
      rw [h] at this
      exact Option.noConfusion this

/-- C7 witness: the theorem applied to a concrete absorbed error and to the
empty result list (where validation does raise). -/
theorem c7_error_isolation_witness :
    processSingleDriver (Except.error noValidDataMsg) = none ∧
    (validateBounds [] = Except.error noValidDataMsg ↔
      ∀ r ∈ ([] : List (Option DriverResult)), r = none) :=
  ⟨c7_error_isolation.1 noValidDataMsg, c7_error_isolation.2 []⟩

/-- C1: the claim's cumulative-offset algorithm is not what the code
computes.  On two consecutive valid laps each spanning 100 distance units,
`_process_single_driver` yields the time-sorted race-distance series
[0, 100, 0, 100]: `total_dist_so_far` is initialised but never updated
(processors.py lines 61, 84), so race distance restarts at 0 on the second
lap and the series is not non-decreasing, contradicting the claim, the
source's own comment at line 83 and the spec's CompetitorSeries invariant. -/
theorem c1_race_distance_not_monotonic :
    (processSingleDriver (Except.ok c1Laps)).map (fun r => r.data.map (·.dist)) =
      some [0, 100, 0, 100] ∧
    ¬ List.Chain' (· ≤ ·) ([0, 100, 0, 100] : List ℚ) := by
  constructor
  · norm_num [processSingleDriver, processLaps, collectLaps, lapSamples, c1Laps, c1Tel1,
      c1Tel2, listMin, listMax, maxLapOf, sampleLe, List.range_succ]
  · norm_num [List.chain'_cons]

theorem DT_pos : (0 : ℚ) < DT := by norm_num [DT, FPS]

theorem raceTimeline_eq (gmin gmax : ℚ) :
    raceTimeline gmin gmax =
      (List.range (arangeLen gmin gmax DT)).map (fun k : ℕ => (k : ℚ) * DT) := by
  unfold raceTimeline arange
  rw [List.map_map]
  congr 1
  funext k
  simp only [Function.comp_apply]
  ring

/-- C3 counterexample: with `global_t_min = 0`, `global_t_max = 3/50` the
timeline holds 2 ticks although `floor((t_max - t_min)/step) = 1`:
`np.arange` yields `ceil((stop-start)/step)` samples, not floor. -/
theorem c3_timeline_len_not_floor_cex :
    (raceTimeline 0 (3 / 50)).length = 2 ∧
    (⌊((3 / 50 : ℚ) - 0) / DT⌋ : ℤ).toNat = 1 ∧
    (raceTimeline 0 (3 / 50)).length ≠ (⌊((3 / 50 : ℚ) - 0) / DT⌋ : ℤ).toNat := by
  have hc : (⌈(3 : ℚ) / 2⌉ : ℤ) = 2 := by
    rw [Int.ceil_eq_iff]
    constructor <;> norm_num
  have hf : (⌊(3 : ℚ) / 2⌋ : ℤ) = 1 := by
    rw [Int.floor_eq_iff]
    norm_num
  have h1 : (raceTimeline 0 (3 / 50)).length = 2 := by
    rw [raceTimeline_eq, List.length_map, List.length_range]
    norm_num [arangeLen, DT, FPS]
    rw [hc]
    rfl
  have h2 : (⌊((3 / 50 : ℚ) - 0) / DT⌋ : ℤ).toNat = 1 := by
    norm_num [DT, FPS, hf]
  refine ⟨h1, h2, ?_⟩
  rw [h1, h2]
  omega

/-- C3 (amended): for `global_t_min < global_t_max` the race timeline has
`ceil((t_max - t_min)/step)` ticks — not floor — its first offset is 0,
consecutive offsets differ by exactly `DT`, and every offset stays strictly
below `t_max - t_min` (no partial final tick is emitted). -/
theorem c3_timeline_shape (gmin gmax : ℚ) (h : gmin < gmax) :
    (raceTimeline gmin gmax).length = (⌈(gmax - gmin) / DT⌉ : ℤ).toNat ∧
    (raceTimeline gmin gmax).get? 0 = some 0 ∧
    List.Chain' (fun a b => b = a + DT) (raceTimeline gmin gmax) ∧
    ∀ τ ∈ raceTimeline gmin gmax, τ < gmax - gmin := by
  have hq : (0 : ℚ) < (gmax - gmin) / DT := by
    apply div_pos (by linarith) DT_pos
  have hlen : arangeLen gmin gmax DT = (⌈(gmax - gmin) / DT⌉ : ℤ).toNat := by
    simp [arangeLen, DT_pos, h]
  have hnpos : 0 < (⌈(gmax - gmin) / DT⌉ : ℤ).toNat := by
    have := Int.ceil_pos.mpr hq
    omega
  refine ⟨?_, ?_, ?_, ?_⟩
  · rw [raceTimeline_eq, List.length_map, List.length_range, hlen]
  · rw [raceTimeline_eq, List.get?_map, List.get?_range (by rw [hlen]; exact hnpos)]
    simp
  · rw [raceTimeline_eq, List.chain'_iff_get]
    intro i hi
    simp only [List.length_map, List.length_range] at hi
    rw [List.get_map, List.get_map, List.get_range, List.get_range]
    push_cast
    ring
  · intro τ hτ
    rw [raceTimeline_eq] at hτ
    obtain ⟨k, hk, rfl⟩ := List.mem_map.mp hτ
    rw [List.mem_range, hlen] at hk
    have hkc : (k : ℤ) < ⌈(gmax - gmin) / DT⌉ := by omega
    have hkq : (k : ℚ) < (gmax - gmin) / DT := by
      have h1 : ((k : ℤ) : ℚ) ≤ (⌈(gmax - gmin) / DT⌉ : ℚ) - 1 := by
        have : (k : ℤ) + 1 ≤ ⌈(gmax - gmin) / DT⌉ := hkc
        push_cast
        exact_mod_cast le_sub_iff_add_le.mpr (by exact_mod_cast this)
      have h2 : (⌈(gmax - gmin) / DT⌉ : ℚ) - 1 < (gmax - gmin) / DT := by
        have := Int.ceil_lt_add_one ((gmax - gmin) / DT)
        linarith
      calc ((k : ℕ) : ℚ) = ((k : ℤ) : ℚ) := by push_cast; ring
        _ ≤ _ := h1
        _ < _ := h2
    calc (k : ℚ) * DT < (gmax - gmin) / DT * DT :=
          mul_lt_mul_of_pos_right hkq DT_pos
      _ = gmax - gmin := div_mul_cancel₀ _ (ne_of_gt DT_pos)

/-- C3 witness: the amended theorem at `gmin = 0`, `gmax = 1`. -/
theorem c3_timeline_shape_witness :
    (0 : ℚ) < 1 ∧
    ((raceTimeline 0 1).length = (⌈((1 : ℚ) - 0) / DT⌉ : ℤ).toNat ∧
      (raceTimeline 0 1).get? 0 = some 0 ∧
      List.Chain' (fun a b => b = a + DT) (raceTimeline 0 1) ∧
      ∀ τ ∈ raceTimeline 0 1, τ < (1 : ℚ) - 0) :=
  ⟨by norm_num, c3_timeline_shape 0 1 (by norm_num)⟩

theorem rankFrom_map_snd {α : Type} (k : ℕ) :
    ∀ l : List α, (rankFrom k l).map Prod.snd = List.range' k l.length
  | [] => rfl
  | a :: as => by
    simp only [rankFrom, List.map_cons, List.length_cons, List.range'_succ]
    rw [rankFrom_map_snd (k + 1) as]

theorem rankFrom_map_fst {α : Type} (k : ℕ) :
    ∀ l : List α, (rankFrom k l).map Prod.fst = l
  | [] => rfl
  | a :: as => by
    simp only [rankFrom, List.map_cons]
    rw [rankFrom_map_fst (k + 1) as]

theorem mem_rankFrom {α : Type} (k : ℕ) :
    ∀ {l : List α} {p : α × ℕ}, p ∈ rankFrom k l → p.1 ∈ l ∧ k ≤ p.2
  | [], p, h => by simp [rankFrom] at h
  | a :: as, p, h => by
    simp only [rankFrom, List.mem_cons] at h
    rcases h with h | h
    · rw [h]
      exact ⟨List.mem_cons_self _ _, le_refl k⟩
    · obtain ⟨h1, h2⟩ := mem_rankFrom (k + 1) h
      exact ⟨List.mem_cons_of_mem _ h1, Nat.le_of_succ_le h2⟩

theorem rankFrom_strict (k : ℕ) :
    ∀ {l : List SnapEntry}, List.Pairwise distGe l →
      ∀ {a b : SnapEntry × ℕ}, a ∈ rankFrom k l → b ∈ rankFrom k l →
        b.1.dist < a.1.dist → a.2 < b.2
  | [], _, a, b, ha, _, _ => by simp [rankFrom] at ha
  | x :: xs, hp, a, b, ha, hb, hd => by
    have hhead : ∀ y ∈ xs, distGe x y := (List.pairwise_cons.mp hp).1
    have htail : List.Pairwise distGe xs := (List.pairwise_cons.mp hp).2
    simp only [rankFrom, List.mem_cons] at ha hb
    rcases ha with ha | ha
    · rcases hb with hb | hb
      · rw [ha, hb] at hd
        exact absurd hd (lt_irrefl _)
      · rw [ha]
        exact lt_of_lt_of_le (Nat.lt_succ_self k) (mem_rankFrom (k + 1) hb).2
    · rcases hb with hb | hb
      · exfalso
        have hmem : a.1 ∈ xs := (mem_rankFrom (k + 1) ha).1
        have : distGe x a.1 := hhead _ hmem
        rw [hb] at hd
        exact absurd hd (not_lt.mpr this)
      · exact rankFrom_strict (k + 1) htail ha hb hd

/-- C4: positions assigned in a frame are exactly {1..K} (as the list
[1, …, K] in ranked order, hence without duplicates or gaps), and they come
from a descending sort by race distance: a strictly greater distance gets a
strictly smaller position. -/
theorem c4_positions_exact (snap : List SnapEntry) :
    (rankSnapshot snap).map Prod.snd = List.range' 1 snap.length ∧
    ∀ a b : SnapEntry × ℕ, a ∈ rankSnapshot snap → b ∈ rankSnapshot snap →
      b.1.dist < a.1.dist → a.2 < b.2 := by
  constructor
  · rw [rankSnapshot, rankFrom_map_snd]
    rw [(List.perm_insertionSort distGe snap).length_eq]
  · intro a b ha hb hd
    have hsorted : List.Pairwise distGe (List.insertionSort distGe snap) :=
      List.sorted_insertionSort distGe snap
    exact rankFrom_strict 1 hsorted ha hb hd

/-- C4 witness: a concrete two-entry snapshot with distances 10 > 5:
positions are [1, 2] and the farther entry ranks strictly ahead. -/
theorem c4_positions_exact_witness :
    ((rankSnapshot [⟨codeA, 10⟩, ⟨codeB, 5⟩]).map Prod.snd =
      List.range' 1 ([⟨codeA, 10⟩, ⟨codeB, 5⟩] : List SnapEntry).length) ∧
    (⟨⟨codeA, 10⟩, 1⟩ : SnapEntry × ℕ).2 < (⟨⟨codeB, 5⟩, 2⟩ : SnapEntry × ℕ).2 := by
  constructor
  · exact (c4_positions_exact [⟨codeA, 10⟩, ⟨codeB, 5⟩]).1
  · refine (c4_positions_exact [⟨codeA, 10⟩, ⟨codeB, 5⟩]).2
      (⟨⟨codeA, 10⟩, 1⟩ : SnapEntry × ℕ) (⟨⟨codeB, 5⟩, 2⟩ : SnapEntry × ℕ)
      ?_ ?_ (by norm_num)
    · norm_num [rankSnapshot, rankFrom, distGe]
    · norm_num [rankSnapshot, rankFrom, distGe]

theorem drsScan_eq_spec :
    ∀ rest : List (ℚ × ℚ),
      (∀ (zones : List DrsZone) (prev : ℚ), (∀ z ∈ zones, z.zone_end ≠ none) →
        drsScan zones prev rest = zones ++ zonesClosedOpen prev rest) ∧
      (∀ (zones : List DrsZone) (start prev : ℚ), (∀ z ∈ zones, z.zone_end ≠ none) →
        10 ≤ prev →
        drsScan (zones ++ [⟨start, none⟩]) prev rest = zones ++ openZone start prev rest)
  | [] => by
    constructor
    · intro zones prev _
      rw [drsScan, zonesClosedOpen, List.append_nil]
    · intro zones start prev _ _
      rw [drsScan, openZone]
  | (curr, d) :: rest => by
    obtain ⟨ihA, ihB⟩ := drsScan_eq_spec rest
    constructor
    · intro zones prev hz
      rw [drsScan, zonesClosedOpen]
      by_cases hup : 10 ≤ curr ∧ prev < 10
      · rw [if_pos hup]
        have hstep : drsStep zones prev curr d = zones ++ [⟨d, none⟩] := by
          rw [drsStep, if_pos hup]
        rw [hstep]
        exact ihB zones d curr hz hup.1
      · rw [if_neg hup]
        have hstep : drsStep zones prev curr d = zones := by
          rw [drsStep, if_neg hup]
          by_cases hdown : curr < 10 ∧ 10 ≤ prev
          · rw [if_pos hdown]
            cases hlast : zones.getLast? with
            | none => rfl
            | some z =>
              dsimp only
              have hmem : z ∈ zones := by
                have hzs : zones.dropLast ++ [z] = zones :=
                  List.dropLast_append_getLast? z hlast
                rw [← hzs]
                exact List.mem_append_right _ (List.mem_cons_self _ _)
              rw [if_neg (hz z hmem)]
          · rw [if_neg hdown]
        rw [hstep]
        exact ihA zones curr hz
    · intro zones start prev hz hprev
      rw [drsScan, openZone]
      have hup : ¬ (10 ≤ curr ∧ prev < 10) := fun h => absurd hprev (not_le.mpr h.2)
      by_cases hdown : curr < 10 ∧ 10 ≤ prev
      · rw [if_pos hdown]
        have hstep : drsStep (zones ++ [⟨start, none⟩]) prev curr d =
            zones ++ [⟨start, some d⟩] := by
          rw [drsStep, if_neg hup, if_pos hdown, List.getLast?_concat]
          dsimp only
          rw [if_pos rfl, List.dropLast_concat]
        rw [hstep]
        have hz' : ∀ z ∈ zones ++ [⟨start, some d⟩], z.zone_end ≠ none := by
          intro z hzm
          rcases List.mem_append.mp hzm with h1 | h1
          · exact hz z h1
          · rw [List.mem_singleton.mp h1]
            simp
        rw [ihA (zones ++ [(⟨start, some d⟩ : DrsZone)]) curr hz', List.append_assoc]
        rfl
      · rw [if_neg hdown]
        have hstep : drsStep (zones ++ [⟨start, none⟩]) prev curr d =
            zones ++ [⟨start, none⟩] := by
          rw [drsStep, if_neg hup, if_neg hdown]
        rw [hstep]
        have hcurr : 10 ≤ curr := by
          by_contra hc
          exact hdown ⟨not_le.mp hc, hprev⟩
        exact ihB zones start curr hz hcurr

/-- C8: in the qualifying variant, the DRS scan over consecutive resampled
ticks computes, for every input, exactly the zones described by the claim:
a zone is opened with `zone_start` = the race distance at tick i exactly
when the code at i is ≥ 10 and at i−1 is < 10, and the most recent open
zone is closed with `zone_end` = the race distance at tick i exactly when
the code at i is < 10 and at i−1 is ≥ 10 (`detectDrsZones` equals the
opening/closing state machine `zonesClosedOpen`/`openZone` verbatim); in
particular codes [8, 8, 10, 10, 8] over distances [0, 1, 2, 3, 4] yield
the single zone {start = 2, end = 4}. -/
theorem c8_drs_zone_detection :
    (∀ (drs dist : List ℚ) (p : ℚ × ℚ) (rest : List (ℚ × ℚ)),
      drs.zip dist = p :: rest →
      detectDrsZones drs dist = zonesClosedOpen p.1 rest) ∧
    detectDrsZones [8, 8, 10, 10, 8] [0, 1, 2, 3, 4] = [⟨2, some 4⟩] := by
  constructor
  · intro drs dist p rest h
    obtain ⟨d0, dd⟩ := p
    rw [detectDrsZones, h]
    dsimp only
    have hA := (drsScan_eq_spec rest).1 [] d0 (by intro z hzm; simp at hzm)
    rw [hA, List.nil_append]
  · norm_num [detectDrsZones, drsScan, drsStep]

/-- C8 witness: the general opening/closing characterization applied to the
scenario input itself: the code's scan equals the spec state machine. -/
theorem c8_drs_zone_detection_witness :
    ([8, 8, 10, 10, 8] : List ℚ).zip [0, 1, 2, 3, 4] =
      ((8 : ℚ), (0 : ℚ)) :: [(8, 1), (10, 2), (10, 3), (8, 4)] ∧
    detectDrsZones [8, 8, 10, 10, 8] [0, 1, 2, 3, 4] =
      zonesClosedOpen 8 [(8, 1), (10, 2), (10, 3), (8, 4)] := by
  refine ⟨rfl, ?_⟩
  exact c8_drs_zone_detection.1 [8, 8, 10, 10, 8] [0, 1, 2, 3, 4]
    (8, 0) [(8, 1), (10, 2), (10, 3), (8, 4)] rfl

theorem filterMap_some_eq_map {α β : Type} (g : α → β) :
    ∀ l : List α, l.filterMap (fun a => some (g a)) = l.map g
  | [] => rfl
  | a :: as => by
    simp [List.filterMap_cons, filterMap_some_eq_map g as]

theorem buildFrames_eq_map (timeline : List ℚ) (drivers : List (String × List ℚ))
    (h : drivers ≠ []) :
    buildFrames timeline drivers =
      (List.range timeline.length).map
        (fun i => ⟨round3 (timeline.getD i 0), rankSnapshot (snapshotAt drivers i)⟩) := by
  unfold buildFrames
  have hsnap : ∀ i, (snapshotAt drivers i).isEmpty = false := by
    intro i
    cases drivers with
    | nil => exact absurd rfl h
    | cons d ds => simp [snapshotAt]
  have hfun : (fun i =>
      if (snapshotAt drivers i).isEmpty then none
      else some (RaceFrame.mk (round3 (timeline.getD i 0)) (rankSnapshot (snapshotAt drivers i)))) =
      fun i => some (RaceFrame.mk (round3 (timeline.getD i 0))
        (rankSnapshot (snapshotAt drivers i))) := by
    funext i
    rw [hsnap i]
    rfl
  rw [hfun, filterMap_some_eq_map]

theorem interpP_left_clamp (x : ℚ) (p : ℚ × ℚ) (ps : List (ℚ × ℚ)) (h : x ≤ p.1) :
    interpP x (p :: ps) = p.2 := by
  obtain ⟨x0, f0⟩ := p
  cases ps with
  | nil => rfl
  | cons q qs =>
    obtain ⟨x1, f1⟩ := q
    rw [interpP, if_pos h]

theorem interpP_right_clamp (x : ℚ) :
    ∀ (l : List (ℚ × ℚ)) (p : ℚ × ℚ), l.getLast? = some p →
      (∀ q ∈ l, q.1 < x) → interpP x l = p.2
  | [], p, h, _ => by simp at h
  | [q], p, h, hall => by
    obtain ⟨x0, f0⟩ := q
    rw [List.getLast?_singleton, Option.some.injEq] at h
    rw [interpP, ← h]
  | q :: r :: rest, p, h, hall => by
    obtain ⟨x0, f0⟩ := q
    obtain ⟨x1, f1⟩ := r
    have h0 : ¬ x ≤ x0 := not_le.mpr (hall (x0, f0) (List.mem_cons_self _ _))
    have h1 : ¬ x ≤ x1 :=
      not_le.mpr (hall (x1, f1) (List.mem_cons_of_mem _ (List.mem_cons_self _ _)))
    rw [interpP, if_neg h0, if_neg h1]
    exact interpP_right_clamp x ((x1, f1) :: rest) p
      (by rwa [List.getLast?_cons_cons] at h)
      (fun q hq => hall q (List.mem_cons_of_mem _ hq))

/-- C9: when at least one competitor is valid, the race frame loop emits
exactly one frame per timeline tick (the empty-snapshot skip never fires)
and every frame ranks exactly the full competitor set; and `np.interp`
clamps at coverage boundaries, so a tick at or before a competitor's first
sample gets its first sample value and a tick after its last sample gets
its last sample value. -/
theorem c9_frames_complete :
    (∀ (timeline : List ℚ) (drivers : List (String × List ℚ)), drivers ≠ [] →
      (buildFrames timeline drivers).length = timeline.length ∧
      ∀ f ∈ buildFrames timeline drivers,
        (f.entries.map (fun p => p.1.code)).Perm (drivers.map Prod.fst)) ∧
    (∀ (τ gmin : ℚ) (t vals : List ℚ) (p : ℚ × ℚ) (ps : List (ℚ × ℚ)),
      sortByTime ((t.map (fun s => s - gmin)).zip vals) = p :: ps →
      τ ≤ p.1 → resampleChannel [τ] gmin t vals = [p.2]) ∧
    (∀ (τ gmin : ℚ) (t vals : List ℚ) (p : ℚ × ℚ),
      (sortByTime ((t.map (fun s => s - gmin)).zip vals)).getLast? = some p →
      (∀ q ∈ sortByTime ((t.map (fun s => s - gmin)).zip vals), q.1 < τ) →
      resampleChannel [τ] gmin t vals = [p.2]) := by
  refine ⟨?_, ?_, ?_⟩
  · intro timeline drivers h
    rw [buildFrames_eq_map timeline drivers h]
    constructor
    · rw [List.length_map, List.length_range]
    · intro f hf
      obtain ⟨i, _, rfl⟩ := List.mem_map.mp hf
      show ((rankSnapshot (snapshotAt drivers i)).map (fun p => p.1.code)).Perm
        (drivers.map Prod.fst)
      have h1 : (rankSnapshot (snapshotAt drivers i)).map (fun p => p.1.code) =
          ((rankSnapshot (snapshotAt drivers i)).map Prod.fst).map (fun e => e.code) := by
        rw [List.map_map]
        rfl
      rw [h1, rankSnapshot, rankFrom_map_fst]
      have h2 : ((List.insertionSort distGe (snapshotAt drivers i)).map
          (fun e => e.code)).Perm ((snapshotAt drivers i).map (fun e => e.code)) :=
        (List.perm_insertionSort distGe (snapshotAt drivers i)).map _
      have h3 : (snapshotAt drivers i).map (fun e => e.code) = drivers.map Prod.fst := by
        rw [snapshotAt, List.map_map]
        rfl
      rw [h3] at h2
      exact h2
  · intro τ gmin t vals p ps h hle
    show [interpP τ (sortByTime ((t.map (fun s => s - gmin)).zip vals))] = [p.2]
    rw [h, interpP_left_clamp τ p ps hle]
  · intro τ gmin t vals p h hall
    show [interpP τ (sortByTime ((t.map (fun s => s - gmin)).zip vals))] = [p.2]
    rw [interpP_right_clamp τ _ p h hall]

/-- C9 witness: a one-tick timeline with one competitor yields one complete
frame, and concrete out-of-coverage ticks get the boundary sample values. -/
theorem c9_frames_complete_witness :
    (buildFrames [0] [(codeA, [5])]).length = ([0] : List ℚ).length ∧
    resampleChannel [-1] 0 [0, 1] [3, 7] = [((0 : ℚ), (3 : ℚ)).2] ∧
    resampleChannel [5] 0 [0, 1] [3, 7] = [((1 : ℚ), (7 : ℚ)).2] := by
  refine ⟨(c9_frames_complete.1 [0] [(codeA, [5])] (by simp)).1, ?_, ?_⟩
  · exact c9_frames_complete.2.1 (-1) 0 [0, 1] [3, 7] (0, 3) [(1, 7)]
      (by norm_num [sortByTime, timeLe]) (by norm_num)
  · exact c9_frames_complete.2.2 5 0 [0, 1] [3, 7] (1, 7)
      (by norm_num [sortByTime, timeLe])
      (by norm_num [sortByTime, timeLe])

theorem assembleQualiFrames_length (timeline dist : List ℚ) (gear : List ℤ)
    (brake : List ℚ) :
    (assembleQualiFrames timeline dist gear brake).length = timeline.length := by
  rw [assembleQualiFrames, List.length_map, List.length_range]

theorem assembleQualiFrames_getElem (timeline dist : List ℚ) (gear : List ℤ)
    (brake : List ℚ) (i : ℕ) (h : i < timeline.length) :
    (assembleQualiFrames timeline dist gear brake)[i]? =
      some ⟨round3 (timeline.getD i 0), dist.getD i 0, gear.getD i 0, brake.getD i 0⟩ := by
  rw [assembleQualiFrames]
  simp [List.getElem?_map, List.getElem?_range h]

/-- C10: in the qualifying variant every frame's time is the tick offset
rounded to milliseconds, except the last: after assembly the final frame's
time is overwritten with the parsed official lap time rounded to
milliseconds, so it need not lie on the tick grid. -/
theorem c10_final_frame_overwrite (timeline dist : List ℚ) (gear : List ℤ)
    (brake : List ℚ) (lapTime : ℚ) (h : timeline ≠ []) :
    (setFinalFrameTime (assembleQualiFrames timeline dist gear brake) lapTime).length =
      timeline.length ∧
    (∀ i : ℕ, i + 1 < timeline.length →
      (setFinalFrameTime (assembleQualiFrames timeline dist gear brake) lapTime)[i]? =
        some ⟨round3 (timeline.getD i 0), dist.getD i 0, gear.getD i 0, brake.getD i 0⟩) ∧
    ((setFinalFrameTime (assembleQualiFrames timeline dist gear brake) lapTime).getLast?).map
        QFrame.t = some (round3 lapTime) := by
  have hlen : (assembleQualiFrames timeline dist gear brake).length = timeline.length :=
    assembleQualiFrames_length timeline dist gear brake
  have hne : assembleQualiFrames timeline dist gear brake ≠ [] := by
    intro hnil
    rw [hnil] at hlen
    exact h (List.length_eq_zero.mp hlen.symm)
  obtain ⟨f0, hf0⟩ : ∃ f0, (assembleQualiFrames timeline dist gear brake).getLast? = some f0 :=
    ⟨_, List.getLast?_eq_getLast_of_ne_nil hne⟩
  have hset : setFinalFrameTime (assembleQualiFrames timeline dist gear brake) lapTime =
      (assembleQualiFrames timeline dist gear brake).dropLast ++
        [{ f0 with t := round3 lapTime }] := by
    rw [setFinalFrameTime, hf0]
  have hpos : 1 ≤ timeline.length := by
    cases timeline with
    | nil => exact absurd rfl h
    | cons a as => exact Nat.succ_le_succ (Nat.zero_le _)
  refine ⟨?_, ?_, ?_⟩
  · rw [hset, List.length_append, List.length_dropLast, hlen]
    simp
    omega
  · intro i hi
    rw [hset]
    have hdrop : i < (assembleQualiFrames timeline dist gear brake).dropLast.length := by
      rw [List.length_dropLast, hlen]
      omega
    rw [List.getElem?_append_left hdrop, List.dropLast_eq_take,
      List.getElem?_take_of_lt (by rw [hlen]; omega)]
    exact assembleQualiFrames_getElem timeline dist gear brake i (by omega)
  · rw [hset, List.getLast?_concat]
    rfl

/-- C10 witness: on a two-tick timeline with lap time 9/2 s, the first
frame keeps its rounded tick time while the final frame's time becomes
round(9/2, 3) — which differs from the final tick offset 1/25 rounded. -/
theorem c10_final_frame_overwrite_witness :
    (setFinalFrameTime (assembleQualiFrames [0, 1/25] [0, 0] [0, 0] [0, 0]) (9/2)).length =
      ([0, (1 : ℚ)/25] : List ℚ).length ∧
    ((setFinalFrameTime (assembleQualiFrames [0, 1/25] [0, 0] [0, 0] [0, 0]) (9/2)).getLast?).map
        QFrame.t = some (round3 (9/2)) ∧
    round3 ((9 : ℚ)/2) ≠ round3 ((1 : ℚ)/25) := by
  refine ⟨(c10_final_frame_overwrite [0, 1/25] [0, 0] [0, 0] [0, 0] (9/2) (by simp)).1,
    (c10_final_frame_overwrite [0, 1/25] [0, 0] [0, 0] [0, 0] (9/2) (by simp)).2.2, ?_⟩
  have h1 : round3 ((9 : ℚ)/2) = 4500 / 1000 := by
    rw [round3]
    norm_num
  have h2 : round3 ((1 : ℚ)/25) = 40 / 1000 := by
    rw [round3]
    norm_num
  rw [h1, h2]
  norm_num

theorem dedupSorted_subset :
    ∀ (l : List (ℚ × ℚ)) (q : ℚ × ℚ), q ∈ dedupSorted l → q ∈ l := by
  intro l
  induction l using dedupSorted.induct with
  | case1 =>
    intro q h
    simp [dedupSorted] at h
  | case2 p =>
    intro q h
    simpa [dedupSorted] using h
  | case3 p q' rest heq ih =>
    intro q h
    rw [dedupSorted, if_pos heq] at h
    rcases List.mem_cons.mp (ih q h) with h1 | h1
    · exact h1 ▸ List.mem_cons_self _ _
    · exact List.mem_cons_of_mem _ (List.mem_cons_of_mem _ h1)
  | case4 p q' rest hne ih =>
    intro q h
    rw [dedupSorted, if_neg hne] at h
    rcases List.mem_cons.mp h with h1 | h1
    · exact h1 ▸ List.mem_cons_self _ _
    · exact List.mem_cons_of_mem _ (ih q h1)

theorem dedupSorted_pairwise_lt :
    ∀ l : List (ℚ × ℚ), List.Pairwise timeLe l → List.Pairwise timeLt (dedupSorted l) := by
  intro l
  induction l using dedupSorted.induct with
  | case1 =>
    intro _
    rw [dedupSorted]
    exact List.Pairwise.nil
  | case2 p =>
    intro _
    rw [dedupSorted]
    exact List.pairwise_singleton _ _
  | case3 p q rest heq ih =>
    intro hp
    rw [dedupSorted, if_pos heq]
    apply ih
    have hs : (p :: rest).Sublist (p :: q :: rest) :=
      List.Sublist.cons₂ p (List.Sublist.cons q (List.Sublist.refl rest))
    exact hp.sublist hs
  | case4 p q rest hne ih =>
    intro hp
    rw [dedupSorted, if_neg hne]
    have htail : List.Pairwise timeLe (q :: rest) := (List.pairwise_cons.mp hp).2
    have hhead : ∀ y ∈ q :: rest, timeLe p y := (List.pairwise_cons.mp hp).1
    refine List.pairwise_cons.mpr ⟨?_, ih htail⟩
    intro y hy
    have hyl : y ∈ q :: rest := dedupSorted_subset _ y hy
    have hpq : p.1 < q.1 := lt_of_le_of_ne (hhead q (List.mem_cons_self _ _)) hne
    rcases List.mem_cons.mp hyl with h1 | h1
    · rw [h1]
      exact hpq
    · exact lt_of_lt_of_le hpq ((List.pairwise_cons.mp htail).1 y h1)

theorem ffillVal_eq_lastAtOrBefore (τ : ℚ) :
    ∀ (p : ℚ × ℚ) (ps : List (ℚ × ℚ)),
      List.Pairwise timeLt (p :: ps) → p.1 ≤ τ →
      ffillVal τ (p :: ps) = lastAtOrBefore τ (p :: ps)
  | p, [], _, hp => by
    rw [ffillVal, lastAtOrBefore]
    simp [searchsortedRight, clipIdx, hp]
  | p, q :: ps, hpair, hp => by
    have htail : List.Pairwise timeLt (q :: ps) := (List.pairwise_cons.mp hpair).2
    by_cases hq : q.1 ≤ τ
    · have ih := ffillVal_eq_lastAtOrBefore τ q ps htail hq
      rw [lastAtOrBefore, if_pos hq, ← ih]
      set c := searchsortedRight ((q :: ps).map Prod.fst) τ with hc
      have hc1 : 1 ≤ c := by
        apply List.countP_pos.mpr
        exact ⟨q.1, by simp, by simp [hq]⟩
      have hcm : c ≤ (q :: ps).length := by
        rw [hc, searchsortedRight]
        calc ((q :: ps).map Prod.fst).countP (fun x => decide (x ≤ τ)) ≤
            ((q :: ps).map Prod.fst).length := List.countP_le_length _
          _ = (q :: ps).length := List.length_map _ _
      have hbig : searchsortedRight ((p :: q :: ps).map Prod.fst) τ = c + 1 := by
        rw [searchsortedRight, List.map_cons, List.countP_cons]
        simp [hp, hc, searchsortedRight]
      rw [ffillVal, ffillVal, hbig]
      have hclip1 : clipIdx (c + 1) (p :: q :: ps).length = c := by
        rw [clipIdx]
        simp only [List.length_cons] at hcm ⊢
        omega
      have hclip2 : clipIdx c (q :: ps).length = c - 1 := by
        rw [clipIdx]
        simp only [List.length_cons] at hcm ⊢
        omega
      rw [hclip1, hclip2]
      have hcsucc : c = (c - 1) + 1 := by omega
      rw [hcsucc, List.getD_cons_succ, Nat.add_sub_cancel]
    · rw [lastAtOrBefore, if_neg hq]
      have hτq : τ < q.1 := not_le.mp hq
      have hzero : searchsortedRight ((q :: ps).map Prod.fst) τ = 0 := by
        rw [searchsortedRight]
        apply List.countP_eq_zero.mpr
        intro x hx
        obtain ⟨r, hr, rfl⟩ := List.mem_map.mp hx
        simp only [decide_eq_true_eq]
        rcases List.mem_cons.mp hr with h1 | h1
        · rw [h1]
          exact hq
        · have hqr : q.1 < r.1 := (List.pairwise_cons.mp htail).1 r h1
          exact not_le.mpr (lt_trans hτq hqr)
      have hbig : searchsortedRight ((p :: q :: ps).map Prod.fst) τ = 1 := by
        rw [searchsortedRight, List.map_cons, List.countP_cons]
        rw [searchsortedRight] at hzero
        rw [hzero]
        simp [hp]
      rw [ffillVal, hbig]
      have hclip : clipIdx 1 (p :: q :: ps).length = 0 := by
        rw [clipIdx]
        simp
      rw [hclip]
      rfl

/-- C2 counterexample: the race path resamples gear by linear
interpolation, not as a step function: raw gear samples 1 at t = 0 and 3 at
t = 1 give the resampled race-path value 2 at tick 1/2, while the last
sample at or before that tick is 1. -/
theorem c2_race_gear_interpolated_cex :
    resampleChannel [1/2] 0 [0, 1] [1, 3] = [2] ∧
    lastAtOrBefore (1/2) [(0, 1), (1, 3)] = 1 ∧
    ((2 : ℚ) ≠ 1) := by
  refine ⟨?_, ?_, by norm_num⟩
  · norm_num [resampleChannel, sortByTime, timeLe, interpP]
  · norm_num [lastAtOrBefore]

/-- C2 (amended): the right-continuous step-function semantics for gear
holds only in the qualifying variant: whenever the deduplicated sample base
starts at or before tick τ, the qualifying gear at τ is the last sample at
or before τ (truncated to int); the race path linearly interpolates gear
like every continuous channel (see the counterexample). -/
theorem c2_quali_gear_step (t vals : List ℚ) (gmin τ : ℚ) (p : ℚ × ℚ)
    (ps : List (ℚ × ℚ)) (h : duPairs t vals gmin = p :: ps) (hp : p.1 ≤ τ) :
    qualiGear [τ] t vals gmin = [ratTrunc (lastAtOrBefore τ (duPairs t vals gmin))] := by
  have hpair : List.Pairwise timeLt (duPairs t vals gmin) := by
    rw [duPairs, sortByTime]
    exact dedupSorted_pairwise_lt _ (List.sorted_insertionSort timeLe _)
  rw [h] at hpair
  show [ratTrunc (ffillVal τ (duPairs t vals gmin))] = _
  rw [h, ffillVal_eq_lastAtOrBefore τ p ps hpair hp]

/-- C2 witness: the qualifying step-function theorem at gear samples
(0, 1), (1, 3) and tick 1/2. -/
theorem c2_quali_gear_step_witness :
    duPairs [0, 1] [1, 3] 0 = ((0 : ℚ), (1 : ℚ)) :: [((1 : ℚ), (3 : ℚ))] ∧
    ((0 : ℚ), (1 : ℚ)).1 ≤ 1/2 ∧
    qualiGear [1/2] [0, 1] [1, 3] 0 =
      [ratTrunc (lastAtOrBefore (1/2) (duPairs [0, 1] [1, 3] 0))] := by
  have h : duPairs [0, 1] [1, 3] 0 = [((0 : ℚ), (1 : ℚ)), ((1 : ℚ), (3 : ℚ))] := by
    norm_num [duPairs, sortByTime, timeLe, dedupSorted]
  exact ⟨h, by norm_num,
    c2_quali_gear_step [0, 1] [1, 3] 0 (1/2) (0, 1) [(1, 3)] h (by norm_num)⟩

theorem interpP_bounds (x lo hi : ℚ) (hlo : lo ≤ 0) (hhi : 0 ≤ hi) :
    ∀ ps : List (ℚ × ℚ), (∀ q ∈ ps, lo ≤ q.2 ∧ q.2 ≤ hi) →
      lo ≤ interpP x ps ∧ interpP x ps ≤ hi
  | [], _ => by
    rw [interpP]
    exact ⟨hlo, hhi⟩
  | [q], hq => by
    obtain ⟨x0, f0⟩ := q
    rw [interpP]
    exact hq (x0, f0) (List.mem_cons_self _ _)
  | (x0, f0) :: (x1, f1) :: rest, hq => by
    by_cases h0 : x ≤ x0
    · rw [interpP, if_pos h0]
      exact hq (x0, f0) (List.mem_cons_self _ _)
    · by_cases h1 : x ≤ x1
      · rw [interpP, if_neg h0, if_pos h1]
        have hf0 := hq (x0, f0) (List.mem_cons_self _ _)
        have hf1 := hq (x1, f1) (List.mem_cons_of_mem _ (List.mem_cons_self _ _))
        have hx0 : x0 < x := not_le.mp h0
        have hd : 0 < x1 - x0 := by linarith
        have hkey : f0 + (f1 - f0) * (x - x0) / (x1 - x0) =
            (f0 * (x1 - x) + f1 * (x - x0)) / (x1 - x0) := by
          field_simp
          ring
        rw [hkey]
        have ha : lo * (x1 - x) ≤ f0 * (x1 - x) :=
          mul_le_mul_of_nonneg_right hf0.1 (by linarith)
        have hb : lo * (x - x0) ≤ f1 * (x - x0) :=
          mul_le_mul_of_nonneg_right hf1.1 (by linarith)
        have hc : f0 * (x1 - x) ≤ hi * (x1 - x) :=
          mul_le_mul_of_nonneg_right hf0.2 (by linarith)
        have hd' : f1 * (x - x0) ≤ hi * (x - x0) :=
          mul_le_mul_of_nonneg_right hf1.2 (by linarith)
        constructor
        · rw [le_div_iff hd]
          linarith
        · rw [div_le_iff hd]
          linarith
      · rw [interpP, if_neg h0, if_neg h1]
        exact interpP_bounds x lo hi hlo hhi ((x1, f1) :: rest)
          (fun q hq' => hq q (List.mem_cons_of_mem _ hq'))

theorem round1_bounds {x : ℚ} (h0 : 0 ≤ x) (h1 : x ≤ 1) :
    0 ≤ round1 x ∧ round1 x ≤ 1 := by
  rw [round1]
  constructor
  · apply div_nonneg _ (by norm_num)
    have h2 : (0 : ℤ) ≤ ⌊x * 10 + 1/2⌋ := Int.floor_nonneg.mpr (by linarith)
    exact_mod_cast h2
  · rw [div_le_one (by norm_num : (0 : ℚ) < 10)]
    have h2 : ⌊x * 10 + 1/2⌋ ≤ 10 := by
      have h3 : x * 10 + 1/2 ≤ 21/2 := by linarith
      calc ⌊x * 10 + 1/2⌋ ≤ ⌊(21 : ℚ)/2⌋ := Int.floor_le_floor h3
        _ = 10 := by norm_num
    exact_mod_cast h2

theorem mem_sortByTime_vals {t vals : List ℚ} {gmin : ℚ} {q : ℚ × ℚ}
    (h : q ∈ sortByTime ((t.map (fun s => s - gmin)).zip vals)) : q.2 ∈ vals := by
  rw [sortByTime] at h
  have h2 : q ∈ (t.map (fun s => s - gmin)).zip vals :=
    (List.perm_insertionSort timeLe _).mem_iff.mp h
  exact (List.of_mem_zip h2).2

/-- C5 counterexample: the race pipeline does not rescale brake: with raw
boolean-derived brake samples all equal to 1, the race path emits 1 (the
raw 0–1 scale) at a tick where the qualifying variant emits 100 — so brake
is not "multiplied by 100" in both pipelines. -/
theorem c5_race_brake_not_rescaled_cex :
    resampleChannel [0] 0 [0, 1] [1, 1] = [1] ∧
    qualiBrake [0] [0, 1] [1, 1] 0 = [100] ∧
    ((1 : ℚ) ≠ 100) := by
  refine ⟨?_, ?_, by norm_num⟩
  · norm_num [resampleChannel, sortByTime, timeLe, interpP]
  · norm_num [qualiBrake, duPairs, sortByTime, timeLe, dedupSorted, interpP, round1]

/-- C5 (amended): only the qualifying variant rescales brake to the 0–100
percentage scale (interpolate, round to one decimal, multiply by 100); the
race pipeline interpolates the raw 0/1 values without scaling, so its
emitted brake values stay in [0, 1] while the qualifying values lie in
[0, 100]. -/
theorem c5_brake_scales (timeline t vals : List ℚ) (gmin : ℚ)
    (hv : ∀ v ∈ vals, v = 0 ∨ v = 1) :
    (∀ b ∈ resampleChannel timeline gmin t vals, 0 ≤ b ∧ b ≤ 1) ∧
    (∀ b ∈ qualiBrake timeline t vals gmin, 0 ≤ b ∧ b ≤ 100) := by
  have hv' : ∀ v ∈ vals, 0 ≤ v ∧ v ≤ 1 := by
    intro v hvm
    rcases hv v hvm with h | h
    · rw [h]
      norm_num
    · rw [h]
      norm_num
  constructor
  · intro b hb
    rw [resampleChannel] at hb
    obtain ⟨τ, hτ, rfl⟩ := List.mem_map.mp hb
    apply interpP_bounds τ 0 1 le_rfl (by norm_num)
    intro q hq
    exact hv' q.2 (mem_sortByTime_vals hq)
  · intro b hb
    rw [qualiBrake] at hb
    obtain ⟨τ, hτ, rfl⟩ := List.mem_map.mp hb
    have hint : 0 ≤ interpP τ (duPairs t vals gmin) ∧
        interpP τ (duPairs t vals gmin) ≤ 1 := by
      apply interpP_bounds τ 0 1 le_rfl (by norm_num)
      intro q hq
      rw [duPairs] at hq
      exact hv' q.2 (mem_sortByTime_vals (dedupSorted_subset _ q hq))
    have hr := round1_bounds hint.1 hint.2
    constructor
    · exact mul_nonneg hr.1 (by norm_num)
    · have h100 := mul_le_mul_of_nonneg_right hr.2 (by norm_num : (0 : ℚ) ≤ 100)
      simpa using h100

/-- C5 witness: the amended theorem on all-ones raw brake samples: the race
value 1 stays within [0, 1] and the qualifying value 100 within [0, 100]. -/
theorem c5_brake_scales_witness :
    (∀ v ∈ ([1, 1] : List ℚ), v = 0 ∨ v = 1) ∧
    (∀ b ∈ resampleChannel [0] 0 [0, 1] [1, 1], 0 ≤ b ∧ b ≤ 1) ∧
    (∀ b ∈ qualiBrake [0] [0, 1] [1, 1] 0, 0 ≤ b ∧ b ≤ 100) := by
  have hv : ∀ v ∈ ([1, 1] : List ℚ), v = 0 ∨ v = 1 := by
    intro v hvm
    simp only [List.mem_cons, List.not_mem_nil, or_false] at hvm
    rcases hvm with h | h
    · right
      exact h
    · right
      exact h
  exact ⟨hv, (c5_brake_scales [0] [0, 1] [1, 1] 0 hv).1,
    (c5_brake_scales [0] [0, 1] [1, 1] 0 hv).2⟩

end F1
